import Mathlib

/-!
Shallow embedding of the file-tree operations engine of the
`mcp-filesystem-server` repository, together with proofs of the
specification claims about it.

The embedding covers:
* `src/operations/permissions.ts` — mode/permission conversions and
  `makeExecutable`;
* `src/operations/streams.ts` — `writeFileChunks` with its backpressure
  loop, modelled over an explicit write-stream state with an internal
  buffer;
* `src/server.ts` — `getAllFiles`, the recursive pattern-filtered walk;
* `src/operations/analysis.ts` — `findDuplicates`, hash-bucket grouping;
* the `FileWatcher` class — watch/unwatch/closeAll state machine and the
  OS-notification callback.

Machine integers are modelled as `Nat` (the JavaScript bitwise operators
used by the code act on the low bits only and never overflow the ranges
involved).  The cryptographic digest is modelled as an explicit function
parameter `hashFn`, since the code delegates hashing to an external
library.
-/

namespace FsServer

/-! ## Permissions (`src/operations/permissions.ts`) -/

/-- One read/write/execute triple of a permission class. -/
structure PermTriple where
  read : Bool
  write : Bool
  execute : Bool
  deriving DecidableEq, Repr

/-- The `FilePermissions` interface: nine independent booleans. -/
structure FilePermissions where
  owner : PermTriple
  group : PermTriple
  others : PermTriple
  deriving DecidableEq, Repr

/-- `modeToPermissions(mode)`: each flag is `Boolean(mode & mask)` for the
standard nine masks. -/
def modeToPermissions (mode : Nat) : FilePermissions :=
  { owner :=
      { read := mode &&& 0o400 != 0
        write := mode &&& 0o200 != 0
        execute := mode &&& 0o100 != 0 }
    group :=
      { read := mode &&& 0o40 != 0
        write := mode &&& 0o20 != 0
        execute := mode &&& 0o10 != 0 }
    others :=
      { read := mode &&& 0o4 != 0
        write := mode &&& 0o2 != 0
        execute := mode &&& 0o1 != 0 } }

/-- `permissionsToMode(permissions)`: bitwise-OR of the masks of the set
flags, accumulated exactly as the source does. -/
def permissionsToMode (permissions : FilePermissions) : Nat :=
  let mode := 0
  let mode := if permissions.owner.read then mode ||| 0o400 else mode
  let mode := if permissions.owner.write then mode ||| 0o200 else mode
  let mode := if permissions.owner.execute then mode ||| 0o100 else mode
  let mode := if permissions.group.read then mode ||| 0o40 else mode
  let mode := if permissions.group.write then mode ||| 0o20 else mode
  let mode := if permissions.group.execute then mode ||| 0o10 else mode
  let mode := if permissions.others.read then mode ||| 0o4 else mode
  let mode := if permissions.others.write then mode ||| 0o2 else mode
  let mode := if permissions.others.execute then mode ||| 0o1 else mode
  mode

/-- `makeExecutable`: the new mode written by `chmod` is the stat-reported
mode with the three execute bits OR-ed in. -/
def makeExecutableMode (mode : Nat) : Nat :=
  mode ||| 0o111

/-- C1: `modeToPermissions(permissionsToMode(p)) == p` for every permission
struct `p`; mode `0o755` maps to owner={r,w,x}, group={r,-,x},
others={r,-,x} and converts back to `0o755`. -/
theorem c1_mode_permissions_roundtrip :
    (∀ p : FilePermissions, modeToPermissions (permissionsToMode p) = p) ∧
    modeToPermissions 0o755 =
      ⟨⟨true, true, true⟩, ⟨true, false, true⟩, ⟨true, false, true⟩⟩ ∧
    permissionsToMode
      ⟨⟨true, true, true⟩, ⟨true, false, true⟩, ⟨true, false, true⟩⟩ = 0o755 := by
  refine ⟨?_, by decide, by decide⟩
  rintro ⟨⟨a, b, c⟩, ⟨d, e, f⟩, ⟨g, h, i⟩⟩
  revert a b c d e f g h i
  decide

/-- C9: `makeExecutable` writes back the old mode OR `0o111`: afterwards the
three execute bits (positions 0, 3 and 6) are set, and every other bit of
the mode is exactly as it was before the call. -/
theorem c9_makeExecutable_frame (mode : Nat) :
    makeExecutableMode mode = mode ||| 0o111 ∧
    (makeExecutableMode mode).testBit 0 = true ∧
    (makeExecutableMode mode).testBit 3 = true ∧
    (makeExecutableMode mode).testBit 6 = true ∧
    ∀ i : Nat, i ≠ 0 → i ≠ 3 → i ≠ 6 →
      (makeExecutableMode mode).testBit i = mode.testBit i := by
  refine ⟨rfl, ?_, ?_, ?_, ?_⟩
  · simp [makeExecutableMode, Nat.testBit_lor,
      show Nat.testBit 0o111 0 = true from by decide]
  · simp [makeExecutableMode, Nat.testBit_lor,
      show Nat.testBit 0o111 3 = true from by decide]
  · simp [makeExecutableMode, Nat.testBit_lor,
      show Nat.testBit 0o111 6 = true from by decide]
  · intro i h0 h3 h6
    rw [makeExecutableMode, Nat.testBit_lor]
    have hbit : Nat.testBit 0o111 i = false := by
      by_cases hi : i < 7
      · interval_cases i <;> revert h0 h3 h6 <;> decide
      · push_neg at hi
        exact Nat.testBit_lt_two_pow
          (lt_of_lt_of_le (by norm_num)
            (Nat.pow_le_pow_right (by norm_num) hi))
    rw [hbit, Bool.or_false]

/-- Witness for C9 at mode `0o644`, frame bit 7. -/
theorem c9_makeExecutable_frame_witness :
    (makeExecutableMode 0o644).testBit 7 = Nat.testBit 0o644 7 :=
  (c9_makeExecutable_frame 0o644).2.2.2.2 7 (by decide) (by decide) (by decide)

/-! ## Streams (`src/operations/streams.ts`)

`writeFileChunks` iterates over the chunk sequence; each `write` appends the
chunk to the destination stream's internal buffer and reports whether the
buffer is still below the high-water mark; when it is not, the loop awaits
the `drain` event, at which point the buffer has been flushed to the file.
`end` flushes whatever remains and closes the file.  Bytes are `Nat`,
chunks are byte lists. -/

/-- State of a Node writable file stream: the bytes already flushed to the
file and the bytes still in the internal buffer, plus the buffer's
high-water mark. -/
structure WriteStream where
  highWaterMark : Nat
  flushed : List Nat
  buffered : List Nat
  deriving Repr

/-- `writeStream.write(chunk)`: the chunk enters the internal buffer; the
call returns `false` when the buffer has reached the high-water mark. -/
def WriteStream.write (ws : WriteStream) (chunk : List Nat) :
    WriteStream × Bool :=
  let ws' : WriteStream :=
    { ws with buffered := ws.buffered ++ chunk }
  (ws', decide (ws'.buffered.length < ws.highWaterMark))

/-- Awaiting the `drain` event: the internal buffer has been written out to
the file and is empty again. -/
def WriteStream.awaitDrain (ws : WriteStream) : WriteStream :=
  { ws with flushed := ws.flushed ++ ws.buffered, buffered := [] }

/-- `writeStream.end()`: flushes the remaining buffer and closes the file;
the result is the final file content. -/
def WriteStream.endStream (ws : WriteStream) : List Nat :=
  ws.flushed ++ ws.buffered

/-- The body of the `for await` loop of `writeFileChunks`: write the chunk,
and when `write` returned `false`, await `drain` before continuing. -/
def writeStep (ws : WriteStream) (chunk : List Nat) : WriteStream :=
  let r := ws.write chunk
  if r.2 then r.1 else r.1.awaitDrain

/-- `writeFileChunks(filePath, chunks)`: the content the destination file
holds after the loop and the final `end`. -/
def writeFileChunks (highWaterMark : Nat) (chunks : List (List Nat)) :
    List Nat :=
  (chunks.foldl writeStep ⟨highWaterMark, [], []⟩).endStream

theorem writeStep_endStream (ws : WriteStream) (chunk : List Nat) :
    (writeStep ws chunk).endStream = ws.endStream ++ chunk := by
  simp only [writeStep, WriteStream.write, WriteStream.awaitDrain,
    WriteStream.endStream]
  split <;> simp [List.append_assoc]

theorem writeLoop_endStream (chunks : List (List Nat)) (ws : WriteStream) :
    (chunks.foldl writeStep ws).endStream = ws.endStream ++ chunks.flatten := by
  induction chunks generalizing ws with
  | nil => simp
  | cons c cs ih =>
      simp only [List.foldl_cons, List.flatten_cons, ih, writeStep_endStream,
        List.append_assoc]

/-- C2: `writeFileChunks` writes the chunks in order, none dropped and none
duplicated: the resulting file content is exactly the concatenation of the
chunks, for every high-water mark; 1000 chunks of 1024 bytes each produce a
file of exactly 1,024,000 bytes regardless of the buffer size. -/
theorem c2_writeFileChunks_concat :
    (∀ (highWaterMark : Nat) (chunks : List (List Nat)),
      writeFileChunks highWaterMark chunks = chunks.flatten) ∧
    ∀ highWaterMark : Nat,
      (writeFileChunks highWaterMark
        (List.replicate 1000 (List.replicate 1024 0))).length = 1024000 := by
  have hmain : ∀ (hwm : Nat) (chunks : List (List Nat)),
      writeFileChunks hwm chunks = chunks.flatten := by
    intro hwm chunks
    unfold writeFileChunks
    rw [writeLoop_endStream]
    rfl
  refine ⟨hmain, fun hwm => ?_⟩
  rw [hmain, List.length_flatten, List.map_replicate, List.length_replicate,
    List.sum_replicate, smul_eq_mul]

/-! ## Filesystem trees and `getAllFiles` (`src/server.ts`)

A directory's contents are a list of entries; an entry is a file with a
basename and byte content, or a subdirectory with a basename and its own
entries.  `path.join` is modelled as concatenation with a `/` separator.
The caller-supplied regular expression is modelled as its compiled match
predicate on basenames, `Option`al as in the source. -/

/-- A directory entry: a file (basename, content) or a subdirectory. -/
inductive Entry where
  | file : String → List Nat → Entry
  | dir : String → List Entry → Entry
  deriving Repr

/-- `path.join(dirPath, name)`. -/
def pathJoin (dirPath name : String) : String :=
  dirPath ++ "/" ++ name

/-- A reachable file: its full path, its basename and its content. -/
structure FileRec where
  path : String
  name : String
  content : List Nat
  deriving DecidableEq, Repr

mutual

/-- All files reachable from one entry, with full paths, basenames and
contents — the specification-side description of the reachable files. -/
def walkEntry (dirPath : String) : Entry → List FileRec
  | .file name content => [⟨pathJoin dirPath name, name, content⟩]
  | .dir name sub => walkList (pathJoin dirPath name) sub

/-- All files reachable from a list of entries, in entry order. -/
def walkList (dirPath : String) : List Entry → List FileRec
  | [] => []
  | e :: es => walkEntry dirPath e ++ walkList dirPath es

end

mutual

/-- `getAllFiles` restricted to one directory entry: a subdirectory is
always descended into; a file is yielded unless a pattern is supplied and
its basename does not match. -/
def getAllFilesEntry (dirPath : String) (pattern : Option (String → Bool)) :
    Entry → List String
  | .dir name sub => getAllFilesList (pathJoin dirPath name) pattern sub
  | .file name _ =>
      match pattern with
      | some test => if test name then [pathJoin dirPath name] else []
      | none => [pathJoin dirPath name]

/-- `getAllFiles(dirPath, pattern)`: per-entry results flattened in entry
order. -/
def getAllFilesList (dirPath : String) (pattern : Option (String → Bool)) :
    List Entry → List String
  | [] => []
  | e :: es =>
      getAllFilesEntry dirPath pattern e ++ getAllFilesList dirPath pattern es

end

/-- The match predicate applied to a basename: an absent pattern lets every
basename through. -/
def patMatch : Option (String → Bool) → String → Bool
  | none, _ => true
  | some test, name => test name

mutual

theorem getAllFilesEntry_eq (dirPath : String)
    (pattern : Option (String → Bool)) :
    ∀ e : Entry,
      getAllFilesEntry dirPath pattern e =
        ((walkEntry dirPath e).filter fun f => patMatch pattern f.name).map
          (·.path)
  | .file name content => by
      cases pattern with
      | none => simp [getAllFilesEntry, walkEntry, patMatch]
      | some test =>
          by_cases h : test name <;>
            simp [getAllFilesEntry, walkEntry, patMatch, h]
  | .dir name sub => by
      simpa [getAllFilesEntry, walkEntry] using
        getAllFilesList_eq (pathJoin dirPath name) pattern sub

theorem getAllFilesList_eq (dirPath : String)
    (pattern : Option (String → Bool)) :
    ∀ entries : List Entry,
      getAllFilesList dirPath pattern entries =
        ((walkList dirPath entries).filter fun f =>
          patMatch pattern f.name).map (·.path)
  | [] => by simp [getAllFilesList, walkList]
  | e :: es => by
      simp [getAllFilesList, walkList, getAllFilesEntry_eq dirPath pattern e,
        getAllFilesList_eq dirPath pattern es]

end

/-- C5: the walk yields exactly the reachable files (never directories):
with no pattern it yields every reachable file's path, and with a pattern
it yields a file's path exactly when the file's basename matches, while
subdirectories are descended into regardless of their names. -/
theorem c5_getAllFiles_walk (dirPath : String)
    (pattern : Option (String → Bool)) (entries : List Entry) :
    getAllFilesList dirPath pattern entries =
      ((walkList dirPath entries).filter fun f =>
        patMatch pattern f.name).map (·.path) ∧
    getAllFilesList dirPath none entries =
      (walkList dirPath entries).map (·.path) := by
  refine ⟨getAllFilesList_eq dirPath pattern entries, ?_⟩
  rw [getAllFilesList_eq dirPath none entries]
  simp [patMatch]

/-! ## Duplicate detection (`src/operations/analysis.ts`)

`findDuplicates` walks the tree with `getAllFiles` (no pattern), hashes
every file, buckets paths in a `Map<string, string[]>` keyed by digest
(insertion order preserved, as a JavaScript `Map` does), and emits one
group per bucket with more than one member, reading the group's size from
`fs.stat` of the bucket's first member.  The digest algorithm is an
external library; it is modelled as the function parameter `hashFn`. -/

/-- A `DuplicateGroup` record. -/
structure DuplicateGroup where
  hash : String
  size : Nat
  files : List String
  deriving DecidableEq, Repr

/-- Reading the file at path `p` in the tree: the content of the first
reachable file with that full path (reads of nonexistent paths are out of
scope for the claims and default to empty). -/
def readFileAt (root : String) (t : List Entry) (p : String) : List Nat :=
  (((walkList root t).find? fun f => f.path = p).map (·.content)).getD []

/-- `calculateHash(filePath)`: the digest of the file's streamed bytes. -/
def calculateHash (hashFn : List Nat → String) (root : String)
    (t : List Entry) (p : String) : String :=
  hashFn (readFileAt root t p)

/-- `fs.stat(p).size`: the byte size of the file at `p`. -/
def statSize (root : String) (t : List Entry) (p : String) : Nat :=
  (((walkList root t).find? fun f => f.path = p).map (·.content.length)).getD 0

/-- `hashMap.set(hash, [...existing, file])`: an existing bucket grows at
its position, a new digest's bucket is appended at the end. -/
def insertHash : List (String × List String) → String → String →
    List (String × List String)
  | [], h, p => [(h, [p])]
  | (k, ps) :: rest, h, p =>
      if k = h then (k, ps ++ [p]) :: rest
      else (k, ps) :: insertHash rest h p

/-- The `for (const file of files)` accumulation loop of `findDuplicates`. -/
def buildHashMap (dg : String → String) (m : List (String × List String)) :
    List String → List (String × List String)
  | [] => m
  | f :: fs => buildHashMap dg (insertHash m (dg f) f) fs

/-- `findDuplicates(dirPath)`. -/
def findDuplicates (hashFn : List Nat → String) (root : String)
    (t : List Entry) : List DuplicateGroup :=
  let files := getAllFilesList root none t
  let hashMap := buildHashMap (calculateHash hashFn root t) [] files
  (hashMap.filter fun kv => 1 < kv.2.length).map fun kv =>
    ⟨kv.1, statSize root t (kv.2.headD ""), kv.2⟩

/-- Bucket lookup, `hashMap.get(hash) || []`. -/
def lookupList (m : List (String × List String)) (k : String) : List String :=
  ((m.find? fun kv => kv.1 = k).map (·.2)).getD []

/-- The keys of the map, in insertion order. -/
def keysOf (m : List (String × List String)) : List String :=
  m.map Prod.fst

theorem lookupList_nil (k : String) : lookupList [] k = [] := rfl

theorem lookupList_cons (k' : String) (ps : List String)
    (rest : List (String × List String)) (k : String) :
    lookupList ((k', ps) :: rest) k =
      if k' = k then ps else lookupList rest k := by
  by_cases h : k' = k <;> simp [lookupList, List.find?_cons, h]

theorem keysOf_nil : keysOf [] = [] := rfl

theorem keysOf_cons (k' : String) (ps : List String)
    (rest : List (String × List String)) :
    keysOf ((k', ps) :: rest) = k' :: keysOf rest := rfl

theorem lookupList_insertHash (m : List (String × List String))
    (h p k : String) :
    lookupList (insertHash m h p) k =
      lookupList m k ++ if h = k then [p] else [] := by
  induction m with
  | nil =>
      by_cases hk : h = k <;>
        simp [insertHash, lookupList_cons, lookupList_nil, hk]
  | cons kv rest ih =>
      obtain ⟨k', ps⟩ := kv
      by_cases hkh : k' = h
      · subst hkh
        rw [insertHash, if_pos rfl, lookupList_cons, lookupList_cons]
        by_cases hkk : k' = k
        · simp [hkk]
        · simp [hkk]
      · rw [insertHash, if_neg hkh, lookupList_cons, lookupList_cons]
        by_cases hkk : k' = k
        · subst hkk
          have : ¬h = k' := fun hh => hkh hh.symm
          simp [this]
        · simp [hkk, ih]

theorem keysOf_insertHash (m : List (String × List String)) (h p : String) :
    keysOf (insertHash m h p) =
      if h ∈ keysOf m then keysOf m else keysOf m ++ [h] := by
  induction m with
  | nil => simp [insertHash, keysOf]
  | cons kv rest ih =>
      obtain ⟨k', ps⟩ := kv
      by_cases hkh : k' = h
      · subst hkh
        rw [insertHash, if_pos rfl, keysOf_cons, keysOf_cons]
        simp
      · have hne : ¬h = k' := fun hh => hkh hh.symm
        rw [insertHash, if_neg hkh, keysOf_cons, keysOf_cons, ih]
        by_cases hmem : h ∈ keysOf rest <;>
          simp [hmem, hne, List.mem_cons]

theorem nodup_keysOf_insertHash (m : List (String × List String))
    (h p : String) (hm : (keysOf m).Nodup) :
    (keysOf (insertHash m h p)).Nodup := by
  rw [keysOf_insertHash]
  by_cases hmem : h ∈ keysOf m
  · simpa [hmem] using hm
  · rw [if_neg hmem]
    refine List.Nodup.append hm (by simp) ?_
    intro a ha ha'
    rw [List.mem_singleton] at ha'
    exact hmem (ha' ▸ ha)

theorem lookupList_buildHashMap (dg : String → String)
    (files : List String) (m : List (String × List String)) (k : String) :
    lookupList (buildHashMap dg m files) k =
      lookupList m k ++ files.filter fun f => dg f = k := by
  induction files generalizing m with
  | nil => simp [buildHashMap]
  | cons f fs ih =>
      rw [buildHashMap, ih, lookupList_insertHash]
      by_cases hf : dg f = k <;> simp [hf, List.filter_cons]

theorem mem_keysOf_buildHashMap (dg : String → String)
    (files : List String) (m : List (String × List String)) (k : String) :
    k ∈ keysOf (buildHashMap dg m files) ↔
      k ∈ keysOf m ∨ ∃ f ∈ files, dg f = k := by
  induction files generalizing m with
  | nil => simp [buildHashMap]
  | cons f fs ih =>
      rw [buildHashMap, ih, keysOf_insertHash]
      by_cases hmem : dg f ∈ keysOf m
      · rw [if_pos hmem]
        constructor
        · rintro (hk | ⟨f', hf', hdg⟩)
          · exact Or.inl hk
          · exact Or.inr ⟨f', List.mem_cons_of_mem f hf', hdg⟩
        · rintro (hk | ⟨f', hf', hdg⟩)
          · exact Or.inl hk
          · rcases List.mem_cons.mp hf' with rfl | hf''
            · exact Or.inl (hdg ▸ hmem)
            · exact Or.inr ⟨f', hf'', hdg⟩
      · rw [if_neg hmem]
        constructor
        · rintro (hk | ⟨f', hf', hdg⟩)
          · rcases List.mem_append.mp hk with hk' | hk'
            · exact Or.inl hk'
            · exact Or.inr
                ⟨f, List.mem_cons_self f fs, (List.mem_singleton.mp hk').symm⟩
          · exact Or.inr ⟨f', List.mem_cons_of_mem f hf', hdg⟩
        · rintro (hk | ⟨f', hf', hdg⟩)
          · exact Or.inl (List.mem_append.mpr (Or.inl hk))
          · rcases List.mem_cons.mp hf' with rfl | hf''
            · exact Or.inl
                (List.mem_append.mpr (Or.inr (List.mem_singleton.mpr hdg.symm)))
            · exact Or.inr ⟨f', hf'', hdg⟩

theorem nodup_keysOf_buildHashMap (dg : String → String)
    (files : List String) (m : List (String × List String))
    (hm : (keysOf m).Nodup) :
    (keysOf (buildHashMap dg m files)).Nodup := by
  induction files generalizing m with
  | nil => simpa [buildHashMap]
  | cons f fs ih =>
      rw [buildHashMap]
      exact ih _ (nodup_keysOf_insertHash m (dg f) f hm)

theorem lookupList_of_mem (m : List (String × List String))
    (kv : String × List String) (hnd : (keysOf m).Nodup) (hkv : kv ∈ m) :
    lookupList m kv.1 = kv.2 := by
  induction m with
  | nil => cases hkv
  | cons kv' rest ih =>
      obtain ⟨k', ps⟩ := kv'
      rw [keysOf_cons] at hnd
      rcases List.mem_cons.mp hkv with rfl | hkv'
      · rw [lookupList_cons, if_pos rfl]
      · rw [lookupList_cons]
        have hk : ¬k' = kv.1 := by
          intro hk
          exact (List.nodup_cons.mp hnd).1
            (hk ▸ (List.mem_map.mpr ⟨kv, hkv', rfl⟩))
        rw [if_neg hk]
        exact ih (List.nodup_cons.mp hnd).2 hkv'

theorem mem_of_mem_keysOf (m : List (String × List String)) (d : String)
    (hd : d ∈ keysOf m) : (d, lookupList m d) ∈ m := by
  induction m with
  | nil => cases hd
  | cons kv rest ih =>
      obtain ⟨k', ps⟩ := kv
      rw [keysOf_cons] at hd
      by_cases hk : k' = d
      · subst hk
        rw [lookupList_cons, if_pos rfl]
        exact List.mem_cons_self _ _
      · rcases List.mem_cons.mp hd with rfl | hd'
        · exact absurd rfl hk
        · rw [lookupList_cons, if_neg hk]
          exact List.mem_cons_of_mem _ (ih hd')

/-- The bucket of digest `d`: the walked files whose digest is `d`, in walk
order. -/
def bucketOf (hashFn : List Nat → String) (root : String) (t : List Entry)
    (d : String) : List String :=
  (getAllFilesList root none t).filter fun f =>
    calculateHash hashFn root t f = d

theorem findDuplicates_mem (hashFn : List Nat → String) (root : String)
    (t : List Entry) (g : DuplicateGroup) :
    g ∈ findDuplicates hashFn root t ↔
      1 < (bucketOf hashFn root t g.hash).length ∧
      g.files = bucketOf hashFn root t g.hash ∧
      g.size = statSize root t ((bucketOf hashFn root t g.hash).headD "") := by
  have hnd : (keysOf (buildHashMap (calculateHash hashFn root t) []
      (getAllFilesList root none t))).Nodup :=
    nodup_keysOf_buildHashMap _ _ [] (by simp [keysOf])
  constructor
  · intro hg
    rw [findDuplicates] at hg
    simp only [List.mem_map, List.mem_filter] at hg
    obtain ⟨kv, ⟨hkv, hlen⟩, hmk⟩ := hg
    have hval : lookupList (buildHashMap (calculateHash hashFn root t) []
        (getAllFilesList root none t)) kv.1 = kv.2 :=
      lookupList_of_mem _ kv hnd hkv
    rw [lookupList_buildHashMap, lookupList_nil, List.nil_append] at hval
    have hbucket : kv.2 = bucketOf hashFn root t kv.1 := by
      rw [← hval]; rfl
    have hhash : g.hash = kv.1 := by rw [← hmk]
    have hfiles : g.files = kv.2 := by rw [← hmk]
    have hsize : g.size = statSize root t (kv.2.headD "") := by rw [← hmk]
    rw [hhash, hfiles, hsize, hbucket]
    refine ⟨?_, rfl, rfl⟩
    rw [← hbucket]
    exact of_decide_eq_true hlen
  · rintro ⟨hlen, hfiles, hsize⟩
    have hne : bucketOf hashFn root t g.hash ≠ [] := by
      intro h
      rw [h] at hlen
      simp at hlen
    obtain ⟨f, hf⟩ := List.exists_mem_of_ne_nil _ hne
    have hfmem : f ∈ getAllFilesList root none t ∧
        calculateHash hashFn root t f = g.hash := by
      have := List.mem_filter.mp hf
      exact ⟨this.1, of_decide_eq_true this.2⟩
    have hkey : g.hash ∈ keysOf (buildHashMap (calculateHash hashFn root t) []
        (getAllFilesList root none t)) := by
      rw [mem_keysOf_buildHashMap]
      exact Or.inr ⟨f, hfmem.1, hfmem.2⟩
    have hmem := mem_of_mem_keysOf _ _ hkey
    have hval : lookupList (buildHashMap (calculateHash hashFn root t) []
        (getAllFilesList root none t)) g.hash =
        bucketOf hashFn root t g.hash := by
      rw [lookupList_buildHashMap, lookupList_nil, List.nil_append]; rfl
    rw [findDuplicates]
    simp only [List.mem_map, List.mem_filter]
    refine ⟨(g.hash, bucketOf hashFn root t g.hash), ⟨hval ▸ hmem, ?_⟩, ?_⟩
    · exact decide_eq_true hlen
    · obtain ⟨gh, gs, gf⟩ := g
      dsimp only at hfiles hsize ⊢
      rw [← hsize, ← hfiles]

theorem statSize_eq_length_readFileAt (root : String) (t : List Entry)
    (p : String) :
    statSize root t p = (readFileAt root t p).length := by
  rw [statSize, readFileAt]
  cases (walkList root t).find? fun f => f.path = p <;> simp

theorem nodup_findDuplicates_hashes (hashFn : List Nat → String)
    (root : String) (t : List Entry) :
    ((findDuplicates hashFn root t).map (·.hash)).Nodup := by
  have hnd : (keysOf (buildHashMap (calculateHash hashFn root t) []
      (getAllFilesList root none t))).Nodup :=
    nodup_keysOf_buildHashMap _ _ [] (by simp [keysOf])
  rw [findDuplicates]
  simp only [List.map_map]
  exact List.Nodup.sublist
    (List.Sublist.map _ (List.filter_sublist _)) hnd

theorem length_filter_le_one_of_pairwise (dg : String → String)
    (l : List String) (d : String)
    (h : l.Pairwise fun p q => dg p ≠ dg q) :
    (l.filter fun f => dg f = d).length ≤ 1 := by
  induction l with
  | nil => simp
  | cons a as ih =>
      rw [List.pairwise_cons] at h
      by_cases ha : dg a = d
      · rw [List.filter_cons, if_pos (decide_eq_true ha)]
        have hnil : (as.filter fun f => dg f = d) = [] := by
          rw [List.filter_eq_nil_iff]
          intro b hb
          simp only [decide_eq_true_eq]
          intro hbd
          exact h.1 b hb (ha ▸ hbd.symm ▸ rfl)
        simp [hnil]
      · rw [List.filter_cons, if_neg (by simpa using ha)]
        exact ih h.2

/-- The sample tree of the spec's duplicate-detection test property:
`a.txt`="X", `b.txt`="X", `c.txt`="Y" (ASCII byte contents). -/
def sampleTree : List Entry :=
  [.file "a.txt" [88], .file "b.txt" [88], .file "c.txt" [89]]

/-- A concrete digest function separating the two sample contents. -/
def sampleHash : List Nat → String :=
  fun c => if c = [88] then "X" else "Y"

/-- C3: `findDuplicates` emits exactly one group per digest shared by two or
more files — distinct groups have distinct digests, and a group with digest
`d` exists precisely when at least two walked files hash to `d` — and
returns the empty sequence on a tree with no files or with pairwise
distinct digests; on the tree `a.txt`="X", `b.txt`="X", `c.txt`="Y" it
returns exactly one group of size 2 containing `a.txt` and `b.txt`, and
`c.txt` appears in no group. -/
theorem c3_findDuplicates_groups (hashFn : List Nat → String)
    (root : String) (t : List Entry) :
    ((findDuplicates hashFn root t).map (·.hash)).Nodup ∧
    (∀ d : String,
      (∃ g ∈ findDuplicates hashFn root t, g.hash = d) ↔
        2 ≤ (bucketOf hashFn root t d).length) ∧
    (walkList root t = [] → findDuplicates hashFn root t = []) ∧
    ((getAllFilesList root none t).Pairwise
        (fun p q =>
          calculateHash hashFn root t p ≠ calculateHash hashFn root t q) →
      findDuplicates hashFn root t = []) ∧
    (hashFn [88] ≠ hashFn [89] →
      findDuplicates hashFn "root" sampleTree =
        [⟨hashFn [88], 1, [pathJoin "root" "a.txt", pathJoin "root" "b.txt"]⟩] ∧
      ∀ g ∈ findDuplicates hashFn "root" sampleTree,
        pathJoin "root" "c.txt" ∉ g.files) := by
  refine ⟨nodup_findDuplicates_hashes hashFn root t, ?_, ?_, ?_, ?_⟩
  · intro d
    constructor
    · rintro ⟨g, hg, rfl⟩
      exact (findDuplicates_mem hashFn root t g).mp hg |>.1
    · intro hd
      refine ⟨⟨d, statSize root t ((bucketOf hashFn root t d).headD ""),
        bucketOf hashFn root t d⟩,
        (findDuplicates_mem hashFn root t _).mpr ⟨hd, rfl, rfl⟩, rfl⟩
  · intro hw
    rw [List.eq_nil_iff_forall_not_mem]
    intro g hg
    have h1 := ((findDuplicates_mem hashFn root t g).mp hg).1
    have : bucketOf hashFn root t g.hash = [] := by
      rw [bucketOf, getAllFilesList_eq, hw]
      rfl
    rw [this] at h1
    simp at h1
  · intro hpw
    rw [List.eq_nil_iff_forall_not_mem]
    intro g hg
    have h1 := ((findDuplicates_mem hashFn root t g).mp hg).1
    have h2 := length_filter_le_one_of_pairwise
      (calculateHash hashFn root t) (getAllFilesList root none t) g.hash hpw
    rw [bucketOf] at h1
    omega
  · intro hne
    have hres : findDuplicates hashFn "root" sampleTree =
        [⟨hashFn [88], 1,
          [pathJoin "root" "a.txt", pathJoin "root" "b.txt"]⟩] := by
      simp [findDuplicates, sampleTree, getAllFilesList, getAllFilesEntry,
        buildHashMap, insertHash, calculateHash, readFileAt, statSize,
        walkList, walkEntry, pathJoin, List.find?, hne, Ne.symm hne]
    refine ⟨hres, ?_⟩
    intro g hg
    rw [hres, List.mem_singleton] at hg
    subst hg
    simp [pathJoin]

/-- Witness for C3: the sample digest function on the sample tree, and an
empty tree. -/
theorem c3_findDuplicates_groups_witness :
    findDuplicates sampleHash "root" sampleTree =
      [⟨"X", 1, [pathJoin "root" "a.txt", pathJoin "root" "b.txt"]⟩] ∧
    findDuplicates sampleHash "r" [] = [] := by
  constructor
  · have h := (c3_findDuplicates_groups sampleHash "root" sampleTree).2.2.2.2
      (by decide)
    simpa [sampleHash] using h.1
  · exact (c3_findDuplicates_groups sampleHash "r" []).2.2.1 rfl

/-- C4: every member of a returned group has the group's digest, the
group's reported size is the stat size of its first (representative)
member, and — provided the digest does not collide on the walked files —
every member also has exactly the group's byte size. -/
theorem c4_group_invariant (hashFn : List Nat → String) (root : String)
    (t : List Entry) (g : DuplicateGroup)
    (hg : g ∈ findDuplicates hashFn root t) :
    (∀ p ∈ g.files, calculateHash hashFn root t p = g.hash) ∧
    g.size = statSize root t (g.files.headD "") ∧
    ((∀ p ∈ getAllFilesList root none t, ∀ q ∈ getAllFilesList root none t,
        hashFn (readFileAt root t p) = hashFn (readFileAt root t q) →
        readFileAt root t p = readFileAt root t q) →
      ∀ p ∈ g.files, statSize root t p = g.size) := by
  obtain ⟨hlen, hfiles, hsize⟩ := (findDuplicates_mem hashFn root t g).mp hg
  have hdigest : ∀ p ∈ g.files, calculateHash hashFn root t p = g.hash := by
    intro p hp
    rw [hfiles] at hp
    exact of_decide_eq_true (List.mem_filter.mp hp).2
  have hmemfiles : ∀ p ∈ g.files, p ∈ getAllFilesList root none t := by
    intro p hp
    rw [hfiles] at hp
    exact (List.mem_filter.mp hp).1
  refine ⟨hdigest, by rw [hfiles]; exact hsize, ?_⟩
  intro hcf p hp
  have hx : g.files.headD "" ∈ g.files := by
    cases hb : g.files with
    | nil =>
        rw [hfiles] at hb
        rw [hb] at hlen
        simp at hlen
    | cons x xs => simp [hb]
  have hcontent : readFileAt root t p = readFileAt root t (g.files.headD "") := by
    apply hcf p (hmemfiles p hp) _ (hmemfiles _ hx)
    have h1 := hdigest p hp
    have h2 := hdigest _ hx
    rw [calculateHash] at h1 h2
    rw [h1, h2]
  rw [statSize_eq_length_readFileAt, hcontent,
    ← statSize_eq_length_readFileAt, hfiles]
  exact hsize.symm

/-- Witness for C4 on the sample tree: member `b.txt` of the single group
has the group's reported size. -/
theorem c4_group_invariant_witness :
    statSize "root" sampleTree (pathJoin "root" "b.txt") =
      (⟨"X", 1, [pathJoin "root" "a.txt", pathJoin "root" "b.txt"]⟩ :
        DuplicateGroup).size := by
  have h := c4_group_invariant sampleHash "root" sampleTree
    ⟨"X", 1, [pathJoin "root" "a.txt", pathJoin "root" "b.txt"]⟩ (by decide)
  exact h.2.2 (by decide) (pathJoin "root" "b.txt") (by decide)

/-- C10: the groups of a single `findDuplicates` invocation are pairwise
disjoint — a path appears in at most one group — and every listed path is
a file yielded by the walk of the root. -/
theorem c10_groups_disjoint (hashFn : List Nat → String) (root : String)
    (t : List Entry) :
    (findDuplicates hashFn root t).Pairwise
      (fun g1 g2 => ∀ p, p ∈ g1.files → p ∉ g2.files) ∧
    ∀ g ∈ findDuplicates hashFn root t, ∀ p ∈ g.files,
      p ∈ getAllFilesList root none t := by
  constructor
  · have hnd : ((findDuplicates hashFn root t).map (·.hash)).Pairwise
        (· ≠ ·) := nodup_findDuplicates_hashes hashFn root t
    have hpw := List.pairwise_map.mp hnd
    refine List.Pairwise.imp_of_mem ?_ hpw
    intro g1 g2 h1 h2 hne p hp1 hp2
    have hd1 := ((findDuplicates_mem hashFn root t g1).mp h1).2.1
    have hd2 := ((findDuplicates_mem hashFn root t g2).mp h2).2.1
    rw [hd1] at hp1
    rw [hd2] at hp2
    have e1 := of_decide_eq_true (List.mem_filter.mp hp1).2
    have e2 := of_decide_eq_true (List.mem_filter.mp hp2).2
    exact hne (e1 ▸ e2 ▸ rfl)
  · intro g hg p hp
    rw [((findDuplicates_mem hashFn root t g).mp hg).2.1] at hp
    exact (List.mem_filter.mp hp).1

/-- Witness for C10 on the sample tree: a listed member is a walked file. -/
theorem c10_groups_disjoint_witness :
    pathJoin "root" "a.txt" ∈ getAllFilesList "root" none sampleTree :=
  (c10_groups_disjoint sampleHash "root" sampleTree).2
    ⟨"X", 1, [pathJoin "root" "a.txt", pathJoin "root" "b.txt"]⟩ (by decide)
    (pathJoin "root" "a.txt") (by decide)

/-! ## FileWatcher (watch/unwatch/closeAll state machine)

The `FileWatcher` class keeps a `Map<string, FSWatcher>` from watched
directory path to OS watch handle.  The handle itself is opaque; what the
model keeps per entry is the `recursive` flag passed at registration.
`watchDirectory` throws (before touching the map) when the path is already
a key; `unwatchDirectory` closes and deletes the entry when present and
does nothing otherwise; `closeAll` unwatches every currently-watched path.
The `fs.watch` callback receives an event type and a possibly-absent
filename (`null` or empty on some platforms) and emits at most one
`FileChangeEvent`; timestamps are the observation instants supplied by the
environment. -/

/-- The event kinds of the `FileChangeEvent` interface. -/
inductive FileEventType where
  | add
  | change
  | unlink
  deriving DecidableEq, Repr

/-- A `FileChangeEvent` record. -/
structure FileChangeEvent where
  type : FileEventType
  path : String
  timestamp : Nat
  deriving DecidableEq, Repr

/-- The watcher's state: the path → handle map, as an insertion-ordered
association list with the `recursive` flag standing for the handle. -/
structure FileWatcher where
  watchers : List (String × Bool)
  deriving DecidableEq, Repr

/-- `this.watchers.has(dirPath)`. -/
def hasWatcher (w : FileWatcher) (dirPath : String) : Bool :=
  (w.watchers.find? fun kv => kv.1 = dirPath).isSome

/-- `watchDirectory(dirPath, recursive)`: throws `Already watching` when the
path is a key of the map, otherwise registers exactly one handle. -/
def watchDirectory (w : FileWatcher) (dirPath : String) (recursive : Bool) :
    Except String FileWatcher :=
  if hasWatcher w dirPath then
    .error ("Already watching directory: " ++ dirPath)
  else
    .ok ⟨w.watchers ++ [(dirPath, recursive)]⟩

/-- `unwatchDirectory(dirPath)`: closes and deletes the entry when present,
and is a no-op otherwise. -/
def unwatchDirectory (w : FileWatcher) (dirPath : String) : FileWatcher :=
  if hasWatcher w dirPath then
    ⟨w.watchers.eraseP fun kv => kv.1 = dirPath⟩
  else
    w

/-- `closeAll()`: unwatches every currently-watched path. -/
def closeAll (w : FileWatcher) : FileWatcher :=
  w.watchers.foldl (fun acc kv => unwatchDirectory acc kv.1) w

/-- The `fs.watch` callback body: when the reported filename is absent or
empty (falsy), no event is emitted; otherwise exactly one event is emitted,
of kind `unlink` for a `rename` notification and `change` otherwise. -/
def watchCallback (dirPath eventType : String) (filename : Option String)
    (now : Nat) : List FileChangeEvent :=
  match filename with
  | none => []
  | some fn =>
      if fn = "" then []
      else
        [{ type := if eventType = "rename" then .unlink else .change
           path := pathJoin dirPath fn
           timestamp := now }]

/-- Delivery of one OS notification: the callback runs only while a watch
handle for the directory is registered. -/
def deliverNotification (w : FileWatcher) (dirPath eventType : String)
    (filename : Option String) (now : Nat) : List FileChangeEvent :=
  if hasWatcher w dirPath then watchCallback dirPath eventType filename now
  else []

theorem find?_key_isSome_false_iff (l : List (String × Bool)) (p : String) :
    (l.find? fun kv => kv.1 = p).isSome = false ↔ ∀ kv ∈ l, kv.1 ≠ p := by
  induction l with
  | nil => simp
  | cons kv rest ih =>
      by_cases hk : kv.1 = p
      · rw [List.find?_cons_of_pos _ (by simpa using hk)]
        simp [hk]
      · rw [List.find?_cons_of_neg _ (by simpa using hk)]
        rw [ih]
        constructor
        · intro h kv' hkv'
          rcases List.mem_cons.mp hkv' with rfl | hkv''
          · exact hk
          · exact h kv' hkv''
        · intro h kv' hkv'
          exact h kv' (List.mem_cons_of_mem _ hkv')

theorem hasWatcher_eq_false_iff (w : FileWatcher) (p : String) :
    hasWatcher w p = false ↔ ∀ kv ∈ w.watchers, kv.1 ≠ p := by
  rw [hasWatcher]
  exact find?_key_isSome_false_iff w.watchers p

theorem eraseP_key_not_mem (l : List (String × Bool)) (p : String)
    (hnd : (l.map Prod.fst).Nodup) :
    ∀ kv ∈ l.eraseP fun kv => kv.1 = p, kv.1 ≠ p := by
  induction l with
  | nil => intro kv hkv; cases hkv
  | cons kv' rest ih =>
      rw [List.map_cons, List.nodup_cons] at hnd
      intro kv hkv
      rw [List.eraseP_cons] at hkv
      by_cases hk : kv'.1 = p
      · simp only [hk, eq_self_iff_true, decide_True, cond_true] at hkv
        intro hp
        have hmem : kv.1 ∈ List.map Prod.fst rest :=
          List.mem_map.mpr ⟨kv, hkv, rfl⟩
        rw [hp, ← hk] at hmem
        exact hnd.1 hmem
      · simp only [hk, decide_False, cond_false] at hkv
        rcases List.mem_cons.mp hkv with rfl | hkv'
        · exact hk
        · exact ih hnd.2 kv hkv'

theorem hasWatcher_unwatchDirectory_self (w : FileWatcher) (p : String)
    (hnd : (w.watchers.map Prod.fst).Nodup) :
    hasWatcher (unwatchDirectory w p) p = false := by
  rw [unwatchDirectory]
  by_cases hw : hasWatcher w p
  · rw [if_pos hw, hasWatcher_eq_false_iff]
    exact eraseP_key_not_mem w.watchers p hnd
  · rw [if_neg hw]
    exact Bool.eq_false_iff.mpr hw

theorem nodup_unwatchDirectory (w : FileWatcher) (p : String)
    (hnd : (w.watchers.map Prod.fst).Nodup) :
    ((unwatchDirectory w p).watchers.map Prod.fst).Nodup := by
  rw [unwatchDirectory]
  by_cases hw : hasWatcher w p
  · rw [if_pos hw]
    exact List.Nodup.sublist
      (List.Sublist.map _ (List.eraseP_sublist _)) hnd
  · rw [if_neg hw]
    exact hnd

theorem mem_keys_unwatchDirectory (w : FileWatcher) (p k : String)
    (hk : k ∈ (unwatchDirectory w p).watchers.map Prod.fst) :
    k ∈ w.watchers.map Prod.fst := by
  rw [unwatchDirectory] at hk
  by_cases hw : hasWatcher w p
  · rw [if_pos hw] at hk
    exact (List.Sublist.map Prod.fst (List.eraseP_sublist _)).mem hk
  · rw [if_neg hw] at hk
    exact hk

theorem closeAll_loop (ps : List (String × Bool)) (w : FileWatcher)
    (hsub : ∀ k ∈ w.watchers.map Prod.fst, k ∈ ps.map Prod.fst)
    (hnd : (w.watchers.map Prod.fst).Nodup) :
    (ps.foldl (fun acc kv => unwatchDirectory acc kv.1) w).watchers = [] := by
  induction ps generalizing w with
  | nil =>
      rw [List.foldl_nil]
      have : w.watchers.map Prod.fst = [] := by
        rw [List.eq_nil_iff_forall_not_mem]
        intro k hk
        exact absurd (hsub k hk) (by simp)
      simpa using this
  | cons kv ps' ih =>
      rw [List.foldl_cons]
      refine ih (unwatchDirectory w kv.1) ?_ (nodup_unwatchDirectory w kv.1 hnd)
      intro k hk
      have hkw := hsub k (mem_keys_unwatchDirectory w kv.1 k hk)
      rw [List.map_cons] at hkw
      rcases List.mem_cons.mp hkw with rfl | hmem
      · exfalso
        have hfalse := hasWatcher_unwatchDirectory_self w kv.1 hnd
        rw [hasWatcher_eq_false_iff] at hfalse
        obtain ⟨kv', hkv', hfst⟩ := List.mem_map.mp hk
        exact hfalse kv' hkv' hfst
      · exact hmem

/-- C6: watching an already-watched path fails with the `Already watching`
error and registers nothing; unwatching a path not being watched is a
no-op; after unwatching, watching the same path again succeeds; and the
at-most-one-handle-per-path invariant (no duplicate keys) is preserved by
both operations. -/
theorem c6_watch_state_machine (w : FileWatcher) (p : String) (r : Bool) :
    (hasWatcher w p = true →
      watchDirectory w p r = .error ("Already watching directory: " ++ p)) ∧
    (hasWatcher w p = false →
      watchDirectory w p r = .ok ⟨w.watchers ++ [(p, r)]⟩) ∧
    (hasWatcher w p = false → unwatchDirectory w p = w) ∧
    ((w.watchers.map Prod.fst).Nodup →
      watchDirectory (unwatchDirectory w p) p r =
        .ok ⟨(unwatchDirectory w p).watchers ++ [(p, r)]⟩) ∧
    ((w.watchers.map Prod.fst).Nodup → ∀ w',
      watchDirectory w p r = .ok w' → (w'.watchers.map Prod.fst).Nodup) ∧
    ((w.watchers.map Prod.fst).Nodup →
      ((unwatchDirectory w p).watchers.map Prod.fst).Nodup) := by
  refine ⟨?_, ?_, ?_, ?_, ?_, fun h => nodup_unwatchDirectory w p h⟩
  · intro h
    rw [watchDirectory, if_pos h]
  · intro h
    rw [watchDirectory, if_neg (by simp [h])]
  · intro h
    rw [unwatchDirectory, if_neg (by simp [h])]
  · intro hnd
    rw [watchDirectory,
      if_neg (by simp [hasWatcher_unwatchDirectory_self w p hnd])]
  · intro hnd w' hw'
    rw [watchDirectory] at hw'
    by_cases h : hasWatcher w p
    · rw [if_pos h] at hw'
      cases hw'
    · rw [if_neg h] at hw'
      cases hw'
      have hfalse : hasWatcher w p = false := Bool.eq_false_iff.mpr h
      rw [hasWatcher_eq_false_iff] at hfalse
      simp only [List.map_append, List.map_cons, List.map_nil]
      refine List.Nodup.append hnd (by simp) ?_
      intro a ha ha'
      rw [List.mem_singleton] at ha'
      rw [ha'] at ha
      obtain ⟨kv, hkv, hfst⟩ := List.mem_map.mp ha
      exact hfalse kv hkv hfst

/-- Witness for C6 on a one-entry watcher. -/
theorem c6_watch_state_machine_witness :
    watchDirectory ⟨[("a", true)]⟩ "a" false =
      .error ("Already watching directory: " ++ "a") ∧
    unwatchDirectory ⟨[("a", true)]⟩ "b" = ⟨[("a", true)]⟩ ∧
    watchDirectory (unwatchDirectory ⟨[("a", true)]⟩ "a") "a" true =
      .ok ⟨(unwatchDirectory ⟨[("a", true)]⟩ "a").watchers ++ [("a", true)]⟩ := by
  have h := c6_watch_state_machine ⟨[("a", true)]⟩ "a" false
  have h2 := c6_watch_state_machine ⟨[("a", true)]⟩ "b" false
  have h3 := c6_watch_state_machine ⟨[("a", true)]⟩ "a" true
  exact ⟨h.1 (by decide), h2.2.2.1 (by decide), h3.2.2.2.1 (by decide)⟩

/-- C7 counterexample: an OS notification carrying no filename (as `fs.watch`
may deliver) produces zero `FileChangeEvent`s, not exactly one. -/
theorem c7_counterexample :
    watchCallback "dir" "rename" none 0 = [] ∧
    (watchCallback "dir" "rename" none 0).length ≠ 1 := by
  constructor
  · rfl
  · simp [watchCallback]

/-- C7 (amended): a notification with an absent or empty filename produces
no event; every notification with a non-empty filename produces exactly one
event, of kind `unlink` (removed) for a `rename` notification and `change`
(modified) otherwise — never `add` — carrying the joined affected path and
the observation timestamp. -/
theorem c7_callback_events (dirPath eventType : String)
    (filename : Option String) (now : Nat) :
    (filename = none → watchCallback dirPath eventType filename now = []) ∧
    (filename = some "" → watchCallback dirPath eventType filename now = []) ∧
    (∀ s, filename = some s → s ≠ "" →
      watchCallback dirPath eventType filename now =
        [⟨if eventType = "rename" then .unlink else .change,
          pathJoin dirPath s, now⟩]) ∧
    (watchCallback dirPath eventType filename now).length ≤ 1 ∧
    ∀ e ∈ watchCallback dirPath eventType filename now, e.type ≠ .add := by
  refine ⟨?_, ?_, ?_, ?_, ?_⟩
  · rintro rfl
    rfl
  · rintro rfl
    rfl
  · rintro s rfl hs
    rw [watchCallback]
    simp [hs]
  · cases filename with
    | none => simp [watchCallback]
    | some s =>
        by_cases hs : s = "" <;> simp [watchCallback, hs]
  · intro e he
    cases filename with
    | none => cases he
    | some s =>
        by_cases hs : s = ""
        · rw [watchCallback] at he
          simp [hs] at he
        · rw [watchCallback] at he
          simp only [hs, if_false, List.mem_singleton] at he
          subst he
          by_cases het : eventType = "rename" <;> simp [het]

/-- Witness for C7 (amended) on a `rename` notification for `f.txt`. -/
theorem c7_callback_events_witness :
    watchCallback "dir" "rename" (some "f.txt") 5 =
      [⟨if "rename" = "rename" then .unlink else .change,
        pathJoin "dir" "f.txt", 5⟩] :=
  (c7_callback_events "dir" "rename" (some "f.txt") 5).2.2.1 "f.txt" rfl
    (by decide)

/-- C8: after `closeAll()` no watch handle remains registered for any path,
and no notification on any path is delivered as an event any more. -/
theorem c8_closeAll (w : FileWatcher)
    (hnd : (w.watchers.map Prod.fst).Nodup) :
    (closeAll w).watchers = [] ∧
    ∀ (dirPath eventType : String) (filename : Option String) (now : Nat),
      deliverNotification (closeAll w) dirPath eventType filename now = [] := by
  have hempty : (closeAll w).watchers = [] :=
    closeAll_loop w.watchers w (fun k hk => hk) hnd
  refine ⟨hempty, ?_⟩
  intro dirPath eventType filename now
  rw [deliverNotification, if_neg]
  rw [hasWatcher, hempty]
  simp

/-- Witness for C8 on a two-entry watcher. -/
theorem c8_closeAll_witness :
    (closeAll ⟨[("d1", false), ("d2", true)]⟩).watchers = [] ∧
    deliverNotification (closeAll ⟨[("d1", false), ("d2", true)]⟩) "d1"
      "change" (some "f.txt") 3 = [] := by
  have h := c8_closeAll ⟨[("d1", false), ("d2", true)]⟩ (by decide)
  exact ⟨h.1, h.2 "d1" "change" (some "f.txt") 3⟩

end FsServer
